import Mathlib

/-!
Verification of the paper-trading ledger of `multipair_paper_bot_with_report/bot.py`
(identical in `multipair_paper_bot_with_ui/bot.py`): the `Position` and `Ledger`
dataclasses and the operations `ensure`, `buy`, `sell`, `unrealized`.

The Python code works on floats; the embedding works over an arbitrary linear
ordered field, so the theorems hold in particular for the real numbers (the
spec's idealisation) and can be evaluated over the rationals for witnesses.
Python's guarded divisions (`x / price` only ever run under `price > 0`) mean
field division is an exact model: no division by zero is ever performed.

The `positions` dict is embedded as `String → Option (Position α)`; `ensure`
inserts a fresh zero position on first reference, exactly as
`self.positions[sym] = Position()` does.
-/

namespace PaperBot

/-- The `Position` dataclass: `qty: float = 0.0`, `avg_entry: float = 0.0`. -/
@[ext]
structure Position (α : Type) where
  qty : α
  avg_entry : α
deriving Repr, DecidableEq

/-- The `Ledger` dataclass: `realized_pnl: float = 0.0`,
`positions: Dict[str, Position]` (empty by default). -/
structure Ledger (α : Type) where
  realized_pnl : α
  positions : String → Option (Position α)

variable {α : Type} [LinearOrderedField α]

/-- A freshly constructed `Ledger()`: zero realized PnL, empty dict. -/
def Ledger.init : Ledger α := ⟨0, fun _ => none⟩

/-- The value of a symbol's position as read through the dict, a missing
entry reading as the default `Position()` it would be created as. -/
def Ledger.posOf (L : Ledger α) (sym : String) : Position α :=
  (L.positions sym).getD ⟨0, 0⟩

/-- Embedding of `Ledger.ensure`: `if sym not in self.positions: self.positions[sym] = Position()`. -/
def Ledger.ensure (L : Ledger α) (sym : String) : Ledger α :=
  match L.positions sym with
  | some _ => L
  | none   => ⟨L.realized_pnl, fun s => if s = sym then some ⟨0, 0⟩ else L.positions s⟩

/-- The guarded division `(usdt_notional / price) if price > 0 else 0.0`,
appearing verbatim in both `buy` and `sell`. -/
def fillOf (price notional : α) : α := if 0 < price then notional / price else 0

/-- Embedding of `Ledger.buy`: ensure the position, compute
`qty = (usdt_notional / price) if price > 0 else 0.0`,
`new_qty = p.qty + qty`; reset to `(0, 0)` when `new_qty <= 0`, otherwise
re-average the entry price (or take `price` when the prior quantity was not
positive) and set the quantity; return the filled quantity. -/
def Ledger.buy (L : Ledger α) (sym : String) (price notional : α) : α × Ledger α :=
  let L1 := L.ensure sym
  let p := L1.posOf sym
  let qty : α := fillOf price notional
  let new_qty := p.qty + qty
  let p2 : Position α :=
    if new_qty ≤ 0 then ⟨0, 0⟩
    else ⟨new_qty, if 0 < p.qty then (p.avg_entry * p.qty + price * qty) / new_qty else price⟩
  (qty, ⟨L1.realized_pnl, fun s => if s = sym then some p2 else L1.positions s⟩)

/-- Embedding of `Ledger.sell`: ensure the position, compute
`qty = min(p.qty, usdt_notional / price if price > 0 else 0.0)`; return `0`
with no further mutation when `qty <= 0`; otherwise book
`(price - p.avg_entry) * qty` into `realized_pnl`, decrease the quantity and
reset to `(0, 0)` when it drops to `<= 0`; return the filled quantity. -/
def Ledger.sell (L : Ledger α) (sym : String) (price notional : α) : α × Ledger α :=
  let L1 := L.ensure sym
  let p := L1.posOf sym
  let qty := min p.qty (fillOf price notional)
  if qty ≤ 0 then (0, L1)
  else
    let pnl := (price - p.avg_entry) * qty
    let rem := p.qty - qty
    let p2 : Position α := if rem ≤ 0 then ⟨0, 0⟩ else ⟨rem, p.avg_entry⟩
    (qty, ⟨L1.realized_pnl + pnl, fun s => if s = sym then some p2 else L1.positions s⟩)

/-- Embedding of `Ledger.unrealized`: ensure the position and return
`(price - p.avg_entry) * p.qty if p.qty > 0 else 0.0`; the ensured ledger is
the resulting state. -/
def Ledger.unrealized (L : Ledger α) (sym : String) (price : α) : α × Ledger α :=
  let L1 := L.ensure sym
  let p := L1.posOf sym
  (if 0 < p.qty then (price - p.avg_entry) * p.qty else 0, L1)

/-- One ledger call, for stating properties of arbitrary call sequences.
`mark` is the `unrealized` mark-to-market query (state effect only: the
returned number is irrelevant to reachability). -/
inductive Op (α : Type) where
  | ensure (sym : String)
  | buy (sym : String) (price notional : α)
  | sell (sym : String) (price notional : α)
  | mark (sym : String) (price : α)

/-- The state left behind by one call. -/
def Ledger.applyOp (L : Ledger α) : Op α → Ledger α
  | Op.ensure s => L.ensure s
  | Op.buy s price notional => (L.buy s price notional).2
  | Op.sell s price notional => (L.sell s price notional).2
  | Op.mark s price => (L.unrealized s price).2

/-- The state after a whole sequence of calls. -/
def Ledger.run (L : Ledger α) (ops : List (Op α)) : Ledger α :=
  ops.foldl Ledger.applyOp L

/-- The spec's §3 data-model invariant: every position has a non-negative
quantity, and a zero quantity forces a zero average entry price. -/
def Ledger.Inv (L : Ledger α) : Prop :=
  ∀ s, 0 ≤ (L.posOf s).qty ∧ ((L.posOf s).qty = 0 → (L.posOf s).avg_entry = 0)

/-- Non-negativity of both position fields, the invariant behind C4's
amended claim. -/
def Ledger.NonnegPos (L : Ledger α) : Prop :=
  ∀ s, 0 ≤ (L.posOf s).qty ∧ 0 ≤ (L.posOf s).avg_entry

/-- An `Op` spends a non-negative notional whenever it is a buy. -/
def Op.buyNonneg : Op α → Prop
  | Op.buy _ _ notional => 0 ≤ notional
  | _ => True

/-- The quantity a sell actually fills:
`min(p.qty, usdt_notional / price if price > 0 else 0.0)`. -/
def Ledger.sellFill (L : Ledger α) (sym : String) (price notional : α) : α :=
  min (L.posOf sym).qty (fillOf price notional)

/-- Apply a list of buys `(price, notional)` on one symbol. -/
def Ledger.runBuys (L : Ledger α) (sym : String) (l : List (α × α)) : Ledger α :=
  l.foldl (fun M pn => (M.buy sym pn.1 pn.2).2) L

/-- Total quantity filled by a list of buys `(price, notional)`. -/
def sumQty (l : List (α × α)) : α := (l.map fun pn => pn.2 / pn.1).sum

/-- Total notional spent by a list of buys `(price, notional)`. -/
def sumNotional (l : List (α × α)) : α := (l.map Prod.snd).sum

/-- The C1 scenario states, over ℚ for exact evaluation. -/
def ledgerC1a : Ledger ℚ := ((Ledger.init).buy "BTCUSDT" 100 1000).2

def ledgerC1b : Ledger ℚ := (ledgerC1a.buy "BTCUSDT" 200 2000).2

def ledgerC1c : Ledger ℚ := (ledgerC1b.sell "BTCUSDT" 150 1500).2

/-! ### Structural lemmas about the four operations -/

theorem Ledger.realized_ensure (L : Ledger α) (sym : String) :
    (L.ensure sym).realized_pnl = L.realized_pnl := by
  unfold Ledger.ensure
  cases L.positions sym <;> rfl

theorem Ledger.posOf_ensure (L : Ledger α) (sym s : String) :
    (L.ensure sym).posOf s = L.posOf s := by
  unfold Ledger.ensure Ledger.posOf
  cases h : L.positions sym with
  | some p => rfl
  | none =>
    by_cases hs : s = sym
    · subst hs
      simp [h]
    · simp [hs]

theorem Ledger.positions_ensure_self (L : Ledger α) (sym : String) :
    (L.ensure sym).positions sym = some (L.posOf sym) := by
  unfold Ledger.ensure Ledger.posOf
  cases h : L.positions sym with
  | some p => simp [h]
  | none => simp [h]

theorem Ledger.positions_ensure_ne (L : Ledger α) (sym s : String) (hs : s ≠ sym) :
    (L.ensure sym).positions s = L.positions s := by
  unfold Ledger.ensure
  cases h : L.positions sym with
  | some p => rfl
  | none => simp [hs]

theorem Ledger.buy_fst (L : Ledger α) (sym : String) (price notional : α) :
    (L.buy sym price notional).1 = fillOf price notional := rfl

theorem Ledger.buy_realized (L : Ledger α) (sym : String) (price notional : α) :
    (L.buy sym price notional).2.realized_pnl = L.realized_pnl := by
  simp [Ledger.buy, Ledger.realized_ensure]

theorem Ledger.buy_posOf_ne (L : Ledger α) (sym s : String) (price notional : α)
    (hs : s ≠ sym) :
    (L.buy sym price notional).2.posOf s = L.posOf s := by
  simp only [Ledger.buy, Ledger.posOf, hs, if_false]
  rw [Ledger.positions_ensure_ne L sym s hs]

theorem Ledger.buy_posOf_self (L : Ledger α) (sym : String) (price notional : α) :
    (L.buy sym price notional).2.posOf sym =
      (if (L.posOf sym).qty + fillOf price notional ≤ 0 then (⟨0, 0⟩ : Position α)
       else ⟨(L.posOf sym).qty + fillOf price notional,
             if 0 < (L.posOf sym).qty then
               ((L.posOf sym).avg_entry * (L.posOf sym).qty +
                   price * fillOf price notional) /
                 ((L.posOf sym).qty + fillOf price notional)
             else price⟩) := by
  have he : ((L.ensure sym).positions sym).getD (⟨0, 0⟩ : Position α) = L.posOf sym :=
    Ledger.posOf_ensure L sym sym
  simp only [Ledger.buy, Ledger.posOf, eq_self_iff_true, if_true, Option.getD_some, he]

theorem Ledger.sell_unfold (L : Ledger α) (sym : String) (price notional : α) :
    L.sell sym price notional =
      (if L.sellFill sym price notional ≤ 0 then ((0 : α), L.ensure sym)
       else
        (L.sellFill sym price notional,
         ⟨L.realized_pnl + (price - (L.posOf sym).avg_entry) * L.sellFill sym price notional,
          fun s =>
            if s = sym then
              some (if (L.posOf sym).qty - L.sellFill sym price notional ≤ 0 then ⟨0, 0⟩
                    else ⟨(L.posOf sym).qty - L.sellFill sym price notional,
                          (L.posOf sym).avg_entry⟩)
            else (L.ensure sym).positions s⟩)) := by
  have he : ((L.ensure sym).positions sym).getD (⟨0, 0⟩ : Position α) = L.posOf sym :=
    Ledger.posOf_ensure L sym sym
  simp only [Ledger.sell, Ledger.sellFill, Ledger.posOf, he, Ledger.realized_ensure]

theorem Ledger.sell_neg (L : Ledger α) (sym : String) (price notional : α)
    (h : L.sellFill sym price notional ≤ 0) :
    L.sell sym price notional = (0, L.ensure sym) := by
  rw [Ledger.sell_unfold, if_pos h]

theorem Ledger.sell_pos_fst (L : Ledger α) (sym : String) (price notional : α)
    (h : ¬ L.sellFill sym price notional ≤ 0) :
    (L.sell sym price notional).1 = L.sellFill sym price notional := by
  rw [Ledger.sell_unfold, if_neg h]

theorem Ledger.sell_pos_realized (L : Ledger α) (sym : String) (price notional : α)
    (h : ¬ L.sellFill sym price notional ≤ 0) :
    (L.sell sym price notional).2.realized_pnl =
      L.realized_pnl + (price - (L.posOf sym).avg_entry) * L.sellFill sym price notional := by
  rw [Ledger.sell_unfold, if_neg h]

theorem Ledger.sell_pos_posOf_self (L : Ledger α) (sym : String) (price notional : α)
    (h : ¬ L.sellFill sym price notional ≤ 0) :
    (L.sell sym price notional).2.posOf sym =
      (if (L.posOf sym).qty - L.sellFill sym price notional ≤ 0 then (⟨0, 0⟩ : Position α)
       else ⟨(L.posOf sym).qty - L.sellFill sym price notional, (L.posOf sym).avg_entry⟩) := by
  rw [Ledger.sell_unfold, if_neg h]
  simp [Ledger.posOf]

theorem Ledger.sell_posOf_ne (L : Ledger α) (sym s : String) (price notional : α)
    (hs : s ≠ sym) :
    (L.sell sym price notional).2.posOf s = L.posOf s := by
  rw [Ledger.sell_unfold]
  by_cases h : L.sellFill sym price notional ≤ 0
  · rw [if_pos h]
    exact Ledger.posOf_ensure L sym s
  · rw [if_neg h]
    have hp : ((L.ensure sym).positions s).getD (⟨0, 0⟩ : Position α) = L.posOf s :=
      Ledger.posOf_ensure L sym s
    simp only [Ledger.posOf, hs, if_false, hp]

theorem Ledger.unrealized_fst (L : Ledger α) (sym : String) (price : α) :
    (L.unrealized sym price).1 =
      (if 0 < (L.posOf sym).qty then (price - (L.posOf sym).avg_entry) * (L.posOf sym).qty
       else 0) := by
  have he : ((L.ensure sym).positions sym).getD (⟨0, 0⟩ : Position α) = L.posOf sym :=
    Ledger.posOf_ensure L sym sym
  simp only [Ledger.unrealized, Ledger.posOf, he]

theorem Ledger.unrealized_snd (L : Ledger α) (sym : String) (price : α) :
    (L.unrealized sym price).2 = L.ensure sym := rfl

/-! ### The §3 data-model invariant is preserved by every operation -/

theorem Ledger.inv_ensure {L : Ledger α} (sym : String) (h : L.Inv) : (L.ensure sym).Inv := by
  intro s
  rw [Ledger.posOf_ensure]
  exact h s

theorem Ledger.inv_buy {L : Ledger α} (sym : String) (price notional : α) (h : L.Inv) :
    ((L.buy sym price notional).2).Inv := by
  intro s
  by_cases hs : s = sym
  · subst hs
    rw [Ledger.buy_posOf_self]
    by_cases hq : (L.posOf s).qty + fillOf price notional ≤ 0
    · rw [if_pos hq]
      exact ⟨le_refl 0, fun _ => rfl⟩
    · rw [if_neg hq]
      push_neg at hq
      exact ⟨le_of_lt hq, fun h0 => absurd h0 (ne_of_gt hq)⟩
  · rw [Ledger.buy_posOf_ne L sym s price notional hs]
    exact h s

theorem Ledger.inv_sell {L : Ledger α} (sym : String) (price notional : α) (h : L.Inv) :
    ((L.sell sym price notional).2).Inv := by
  by_cases hf : L.sellFill sym price notional ≤ 0
  · rw [Ledger.sell_neg L sym price notional hf]
    exact Ledger.inv_ensure sym h
  · intro s
    by_cases hs : s = sym
    · subst hs
      rw [Ledger.sell_pos_posOf_self L s price notional hf]
      by_cases hr : (L.posOf s).qty - L.sellFill s price notional ≤ 0
      · rw [if_pos hr]
        exact ⟨le_refl 0, fun _ => rfl⟩
      · rw [if_neg hr]
        push_neg at hr
        exact ⟨le_of_lt hr, fun h0 => absurd h0 (ne_of_gt hr)⟩
    · rw [Ledger.sell_posOf_ne L sym s price notional hs]
      exact h s

theorem Ledger.inv_mark {L : Ledger α} (sym : String) (price : α) (h : L.Inv) :
    ((L.unrealized sym price).2).Inv := by
  rw [Ledger.unrealized_snd]
  exact Ledger.inv_ensure sym h

theorem Ledger.inv_applyOp {L : Ledger α} (op : Op α) (h : L.Inv) : (L.applyOp op).Inv := by
  cases op with
  | ensure s => exact Ledger.inv_ensure s h
  | buy s price notional => exact Ledger.inv_buy s price notional h
  | sell s price notional => exact Ledger.inv_sell s price notional h
  | mark s price => exact Ledger.inv_mark s price h

theorem Ledger.inv_init : (Ledger.init (α := α)).Inv :=
  fun _ => ⟨le_refl 0, fun _ => rfl⟩

theorem Ledger.inv_run (L : Ledger α) (ops : List (Op α)) (h : L.Inv) : (L.run ops).Inv := by
  induction ops generalizing L with
  | nil => exact h
  | cons op t ih => exact ih (L.applyOp op) (Ledger.inv_applyOp op h)

/-- C1: from a fresh ledger, `buy("BTCUSDT",100,1000)`, `buy("BTCUSDT",200,2000)`,
`sell("BTCUSDT",150,1500)` fill 10, 10 and 10, pass through positions
`(10, 100)` and `(20, 150)`, book a realized-PnL delta of `0` on the sell, and
end at position `(10, 150)` with `realized_pnl = 0`. -/
theorem C1_concrete_scenario :
    ((Ledger.init (α := ℚ)).buy "BTCUSDT" 100 1000).1 = 10 ∧
    ledgerC1a.posOf "BTCUSDT" = ⟨10, 100⟩ ∧
    (ledgerC1a.buy "BTCUSDT" 200 2000).1 = 10 ∧
    ledgerC1b.posOf "BTCUSDT" = ⟨20, 150⟩ ∧
    (ledgerC1b.sell "BTCUSDT" 150 1500).1 = 10 ∧
    ledgerC1c.realized_pnl - ledgerC1b.realized_pnl = (150 - 150) * 10 ∧
    ledgerC1c.posOf "BTCUSDT" = ⟨10, 150⟩ ∧
    ledgerC1c.realized_pnl = 0 := by
  refine ⟨?_, ?_, ?_, ?_, ?_, ?_, ?_, ?_⟩ <;>
    simp [ledgerC1a, ledgerC1b, ledgerC1c, Ledger.buy, Ledger.sell, Ledger.ensure,
      Ledger.posOf, Ledger.init, fillOf, min_def] <;> norm_num


/-- C2: starting from a fresh ledger, after any finite sequence of calls
(in particular any sequence of buys and sells) with arbitrary price and
notional inputs, every position's quantity is non-negative: no SHORT state
is reachable. -/
theorem C2_no_short_reachable (ops : List (Op α)) (sym : String) :
    0 ≤ (((Ledger.init (α := α)).run ops).posOf sym).qty :=
  (Ledger.inv_run Ledger.init ops Ledger.inv_init sym).1

/-- C3: in every state reachable from the fresh ledger by any sequence of
`ensure`, `buy`, `sell` and `unrealized` calls with arbitrary inputs, a
position with zero quantity has zero average entry price. -/
theorem C3_flat_implies_zero_avg (ops : List (Op α)) (sym : String) :
    (((Ledger.init (α := α)).run ops).posOf sym).qty = 0 →
    (((Ledger.init (α := α)).run ops).posOf sym).avg_entry = 0 :=
  (Ledger.inv_run Ledger.init ops Ledger.inv_init sym).2

theorem C3_witness :
    (((Ledger.init (α := ℚ)).run
        [Op.buy "S" 100 1000, Op.sell "S" 100 10000]).posOf "S").qty = 0 ∧
    (((Ledger.init (α := ℚ)).run
        [Op.buy "S" 100 1000, Op.sell "S" 100 10000]).posOf "S").avg_entry = 0 := by
  have hq : (((Ledger.init (α := ℚ)).run
      [Op.buy "S" 100 1000, Op.sell "S" 100 10000]).posOf "S").qty = 0 := by
    simp [Ledger.run, Ledger.applyOp, Ledger.buy, Ledger.sell, Ledger.ensure,
      Ledger.posOf, Ledger.init, fillOf, min_def]
    norm_num
  exact ⟨hq, C3_flat_implies_zero_avg [Op.buy "S" 100 1000, Op.sell "S" 100 10000] "S" hq⟩

/-! ### Non-negativity of the average entry price under non-negative buy notionals -/

theorem Ledger.nonneg_ensure {L : Ledger α} (sym : String) (h : L.NonnegPos) :
    (L.ensure sym).NonnegPos := by
  intro s
  rw [Ledger.posOf_ensure]
  exact h s

theorem fillOf_nonneg_mul (price notional : α) (hn : 0 ≤ notional) :
    0 ≤ price * fillOf price notional := by
  unfold fillOf
  by_cases hp : 0 < price
  · rw [if_pos hp, mul_comm, div_mul_cancel₀ notional (ne_of_gt hp)]
    exact hn
  · rw [if_neg hp, mul_zero]

theorem fillOf_pos_price (price notional : α) (hf : 0 < fillOf price notional) :
    0 < price := by
  by_contra hp
  rw [fillOf, if_neg hp] at hf
  exact lt_irrefl 0 hf

theorem Ledger.nonneg_buy {L : Ledger α} (sym : String) (price notional : α)
    (hn : 0 ≤ notional) (h : L.NonnegPos) : ((L.buy sym price notional).2).NonnegPos := by
  intro s
  by_cases hs : s = sym
  · subst hs
    rw [Ledger.buy_posOf_self]
    by_cases hq : (L.posOf s).qty + fillOf price notional ≤ 0
    · rw [if_pos hq]
      exact ⟨le_refl 0, le_refl 0⟩
    · rw [if_neg hq]
      push_neg at hq
      refine ⟨le_of_lt hq, ?_⟩
      by_cases hpq : 0 < (L.posOf s).qty
      · rw [if_pos hpq]
        refine div_nonneg (add_nonneg (mul_nonneg (h s).2 (h s).1) ?_) (le_of_lt hq)
        exact fillOf_nonneg_mul price notional hn
      · rw [if_neg hpq]
        have hq0 : (L.posOf s).qty = 0 := le_antisymm (not_lt.mp hpq) (h s).1
        rw [hq0, zero_add] at hq
        exact le_of_lt (fillOf_pos_price price notional hq)
  · rw [Ledger.buy_posOf_ne L sym s price notional hs]
    exact h s

theorem Ledger.nonneg_sell {L : Ledger α} (sym : String) (price notional : α)
    (h : L.NonnegPos) : ((L.sell sym price notional).2).NonnegPos := by
  by_cases hf : L.sellFill sym price notional ≤ 0
  · rw [Ledger.sell_neg L sym price notional hf]
    exact Ledger.nonneg_ensure sym h
  · intro s
    by_cases hs : s = sym
    · subst hs
      rw [Ledger.sell_pos_posOf_self L s price notional hf]
      by_cases hr : (L.posOf s).qty - L.sellFill s price notional ≤ 0
      · rw [if_pos hr]
        exact ⟨le_refl 0, le_refl 0⟩
      · rw [if_neg hr]
        push_neg at hr
        exact ⟨le_of_lt hr, (h s).2⟩
    · rw [Ledger.sell_posOf_ne L sym s price notional hs]
      exact h s

theorem Ledger.nonneg_mark {L : Ledger α} (sym : String) (price : α) (h : L.NonnegPos) :
    ((L.unrealized sym price).2).NonnegPos := by
  rw [Ledger.unrealized_snd]
  exact Ledger.nonneg_ensure sym h

theorem Ledger.nonneg_applyOp {L : Ledger α} (op : Op α) (hop : op.buyNonneg)
    (h : L.NonnegPos) : (L.applyOp op).NonnegPos := by
  cases op with
  | ensure s => exact Ledger.nonneg_ensure s h
  | buy s price notional => exact Ledger.nonneg_buy s price notional hop h
  | sell s price notional => exact Ledger.nonneg_sell s price notional h
  | mark s price => exact Ledger.nonneg_mark s price h

theorem Ledger.nonneg_init : (Ledger.init (α := α)).NonnegPos :=
  fun _ => ⟨le_refl 0, le_refl 0⟩

theorem Ledger.nonneg_run (L : Ledger α) (ops : List (Op α))
    (hops : ∀ op ∈ ops, op.buyNonneg) (h : L.NonnegPos) : (L.run ops).NonnegPos := by
  induction ops generalizing L with
  | nil => exact h
  | cons op t ih =>
    exact ih (L.applyOp op) (fun o ho => hops o (List.mem_cons_of_mem op ho))
      (Ledger.nonneg_applyOp op (hops op (List.mem_cons_self op t)) h)

/-- C4, counterexample: the claim admits arbitrary real notionals, but a buy of
negative notional at a price above the average entry drives the average entry
price negative: after `buy("S",100,1000)` then `buy("S",200,-1200)` the
position is `(4, -50)`. -/
theorem C4_counterexample :
    (((Ledger.init (α := ℚ)).run
        [Op.buy "S" 100 1000, Op.buy "S" 200 (-1200)]).posOf "S").avg_entry = -50 ∧
    ¬ (0 ≤ (((Ledger.init (α := ℚ)).run
        [Op.buy "S" 100 1000, Op.buy "S" 200 (-1200)]).posOf "S").avg_entry) := by
  have ha : (((Ledger.init (α := ℚ)).run
      [Op.buy "S" 100 1000, Op.buy "S" 200 (-1200)]).posOf "S").avg_entry = -50 := by
    simp [Ledger.run, Ledger.applyOp, Ledger.buy, Ledger.ensure, Ledger.posOf,
      Ledger.init, fillOf]
    norm_num
  refine ⟨ha, ?_⟩
  rw [ha]
  norm_num

/-- C4, amended: in every state reachable from the fresh ledger by calls whose
buys all spend a non-negative notional (sells, ensures and mark-to-market
queries unrestricted), every position's average entry price is non-negative. -/
theorem C4_amended_avg_entry_nonneg (ops : List (Op α))
    (hops : ∀ op ∈ ops, op.buyNonneg) (sym : String) :
    0 ≤ (((Ledger.init (α := α)).run ops).posOf sym).avg_entry :=
  (Ledger.nonneg_run Ledger.init ops hops Ledger.nonneg_init sym).2

theorem C4_amended_witness :
    (∀ op ∈ [Op.buy "S" (100 : ℚ) 1000, Op.sell "S" 120 600], op.buyNonneg) ∧
    0 ≤ (((Ledger.init (α := ℚ)).run
        [Op.buy "S" 100 1000, Op.sell "S" 120 600]).posOf "S").avg_entry := by
  have hops : ∀ op ∈ [Op.buy "S" (100 : ℚ) 1000, Op.sell "S" 120 600], op.buyNonneg := by
    intro op hop
    rcases List.mem_cons.mp hop with h1 | h2
    · subst h1
      show (0 : ℚ) ≤ 1000
      norm_num
    · rcases List.mem_cons.mp h2 with h3 | h4
      · subst h3
        trivial
      · cases h4
  exact ⟨hops, C4_amended_avg_entry_nonneg
    [Op.buy "S" 100 1000, Op.sell "S" 120 600] hops "S"⟩


/-! ### C5: the buy contract -/

/-- C5: for every ledger state satisfying the data-model invariant at the
traded symbol, `buy` returns `notional / price` when `price > 0` and `0`
otherwise; a non-positive price leaves the position unchanged; with a positive
price and fill `f = notional / price`, a new quantity `<= 0` resets the
position to `(0, 0)`, and otherwise the quantity becomes `oldQty + f` while
the average entry price becomes the notional-weighted average when the old
quantity was positive and exactly `price` when it was zero. -/
theorem C5_buy_contract (L : Ledger α) (sym : String) (price notional : α)
    (hq : 0 ≤ (L.posOf sym).qty)
    (hza : (L.posOf sym).qty = 0 → (L.posOf sym).avg_entry = 0) :
    (L.buy sym price notional).1 = (if 0 < price then notional / price else 0) ∧
    (price ≤ 0 → (L.buy sym price notional).2.posOf sym = L.posOf sym) ∧
    (0 < price → (L.posOf sym).qty + notional / price ≤ 0 →
      (L.buy sym price notional).2.posOf sym = ⟨0, 0⟩) ∧
    (0 < price → 0 < (L.posOf sym).qty + notional / price →
      ((L.buy sym price notional).2.posOf sym).qty =
          (L.posOf sym).qty + notional / price ∧
      (0 < (L.posOf sym).qty →
        ((L.buy sym price notional).2.posOf sym).avg_entry =
          ((L.posOf sym).avg_entry * (L.posOf sym).qty + price * (notional / price)) /
            ((L.posOf sym).qty + notional / price)) ∧
      ((L.posOf sym).qty = 0 →
        ((L.buy sym price notional).2.posOf sym).avg_entry = price)) := by
  refine ⟨rfl, ?_, ?_, ?_⟩
  · intro hp
    have hfill : fillOf price notional = 0 := if_neg (not_lt.mpr hp)
    rw [Ledger.buy_posOf_self, hfill, add_zero]
    by_cases h0 : (L.posOf sym).qty ≤ 0
    · rw [if_pos h0]
      have hq0 : (L.posOf sym).qty = 0 := le_antisymm h0 hq
      exact Position.ext hq0.symm (hza hq0).symm
    · push_neg at h0
      rw [if_neg (not_le.mpr h0), if_pos h0]
      refine Position.ext rfl ?_
      show ((L.posOf sym).avg_entry * (L.posOf sym).qty + price * 0) / (L.posOf sym).qty =
        (L.posOf sym).avg_entry
      rw [mul_zero, add_zero, mul_div_cancel_right₀ _ (ne_of_gt h0)]
  · intro hp hle
    have hfill : fillOf price notional = notional / price := if_pos hp
    rw [Ledger.buy_posOf_self, hfill, if_pos hle]
  · intro hp hpos
    have hfill : fillOf price notional = notional / price := if_pos hp
    rw [Ledger.buy_posOf_self, hfill, if_neg (not_le.mpr hpos)]
    refine ⟨rfl, fun h0 => ?_, fun h0 => ?_⟩
    · exact if_pos h0
    · refine if_neg ?_
      rw [h0]
      exact lt_irrefl 0

/-! ### C6: the sell contract -/

/-- C6: for every ledger state, `sell` fills
`f = min(existingQty, desired)` with `desired = notional / price` when
`price > 0` and `0` otherwise (this is `Ledger.sellFill`); if `f <= 0` it
returns `0` and changes no position value and no realized PnL; otherwise it
returns `f`, adds `(price - avgEntry) * f` to the realized PnL, decreases the
quantity by `f`, and resets the position to `(0, 0)` exactly when the
remaining quantity is `<= 0`. -/
theorem C6_sell_contract (L : Ledger α) (sym : String) (price notional : α) :
    (L.sellFill sym price notional ≤ 0 →
      (L.sell sym price notional).1 = 0 ∧
      (∀ s, (L.sell sym price notional).2.posOf s = L.posOf s) ∧
      (L.sell sym price notional).2.realized_pnl = L.realized_pnl) ∧
    (0 < L.sellFill sym price notional →
      (L.sell sym price notional).1 = L.sellFill sym price notional ∧
      (L.sell sym price notional).2.realized_pnl =
        L.realized_pnl +
          (price - (L.posOf sym).avg_entry) * L.sellFill sym price notional ∧
      ((L.posOf sym).qty - L.sellFill sym price notional ≤ 0 →
        (L.sell sym price notional).2.posOf sym = ⟨0, 0⟩) ∧
      (0 < (L.posOf sym).qty - L.sellFill sym price notional →
        (L.sell sym price notional).2.posOf sym =
          ⟨(L.posOf sym).qty - L.sellFill sym price notional,
            (L.posOf sym).avg_entry⟩)) := by
  constructor
  · intro hf
    rw [Ledger.sell_neg L sym price notional hf]
    exact ⟨rfl, fun s => Ledger.posOf_ensure L sym s, Ledger.realized_ensure L sym⟩
  · intro hf
    have hf' : ¬ L.sellFill sym price notional ≤ 0 := not_le.mpr hf
    refine ⟨Ledger.sell_pos_fst L sym price notional hf',
            Ledger.sell_pos_realized L sym price notional hf', fun hr => ?_, fun hr => ?_⟩
    · rw [Ledger.sell_pos_posOf_self L sym price notional hf', if_pos hr]
    · rw [Ledger.sell_pos_posOf_self L sym price notional hf', if_neg (not_le.mpr hr)]

/-! ### C7: the mark-to-market query -/

/-- C7: `unrealized` returns `(price - avgEntry) * qty` when the symbol's
quantity is positive and `0` otherwise — in particular `0` for a symbol with
no dict entry — and it changes no position value and no realized PnL; its only
state effect is inserting the fresh default entry for the queried symbol. -/
theorem C7_unrealized_query (L : Ledger α) (sym : String) (price : α) :
    (L.unrealized sym price).1 =
      (if 0 < (L.posOf sym).qty then
        (price - (L.posOf sym).avg_entry) * (L.posOf sym).qty
       else 0) ∧
    (L.positions sym = none → (L.unrealized sym price).1 = 0) ∧
    (∀ s, (L.unrealized sym price).2.posOf s = L.posOf s) ∧
    (L.unrealized sym price).2.realized_pnl = L.realized_pnl ∧
    (L.unrealized sym price).2.positions sym = some (L.posOf sym) ∧
    (∀ s, s ≠ sym → (L.unrealized sym price).2.positions s = L.positions s) := by
  refine ⟨Ledger.unrealized_fst L sym price, ?_, ?_, ?_, ?_, ?_⟩
  · intro hnone
    rw [Ledger.unrealized_fst L sym price]
    have hp : L.posOf sym = ⟨0, 0⟩ := by
      rw [Ledger.posOf, hnone]
      rfl
    rw [hp]
    exact if_neg (lt_irrefl 0)
  · intro s
    rw [Ledger.unrealized_snd]
    exact Ledger.posOf_ensure L sym s
  · rw [Ledger.unrealized_snd]
    exact Ledger.realized_ensure L sym
  · rw [Ledger.unrealized_snd]
    exact Ledger.positions_ensure_self L sym
  · intro s hs
    rw [Ledger.unrealized_snd]
    exact Ledger.positions_ensure_ne L sym s hs

/-! ### C8: flat round trip at one price -/

/-- C8: from a flat position, buying notional `n` at price `p > 0` and
immediately selling the same notional at the same price books no realized PnL
and returns the position to `(0, 0)`. -/
theorem C8_flat_round_trip (L : Ledger α) (sym : String) (price notional : α)
    (hp : 0 < price) (hn : 0 < notional) (hflat : (L.posOf sym).qty = 0) :
    (((L.buy sym price notional).2.sell sym price notional).2).realized_pnl =
      L.realized_pnl ∧
    (((L.buy sym price notional).2.sell sym price notional).2).posOf sym = ⟨0, 0⟩ := by
  have hfill : fillOf price notional = notional / price := if_pos hp
  have hf : 0 < notional / price := div_pos hn hp
  have h1 : (L.buy sym price notional).2.posOf sym = ⟨notional / price, price⟩ := by
    rw [Ledger.buy_posOf_self, hfill, hflat, zero_add, if_neg (not_le.mpr hf),
      if_neg (lt_irrefl 0)]
  have hsf : (L.buy sym price notional).2.sellFill sym price notional = notional / price := by
    rw [Ledger.sellFill, h1, hfill]
    exact min_self _
  have hsf' : ¬ (L.buy sym price notional).2.sellFill sym price notional ≤ 0 := by
    rw [hsf]
    exact not_le.mpr hf
  constructor
  · rw [Ledger.sell_pos_realized _ sym price notional hsf', hsf, h1,
      Ledger.buy_realized]
    show L.realized_pnl + (price - price) * (notional / price) = L.realized_pnl
    rw [sub_self, zero_mul, add_zero]
  · rw [Ledger.sell_pos_posOf_self _ sym price notional hsf', hsf, h1]
    rw [if_pos (le_of_eq (sub_self (notional / price)))]

/-! ### C9: weighted-average accumulation over a list of buys -/

theorem sumQty_nil : sumQty ([] : List (α × α)) = 0 := rfl

theorem sumQty_cons (pn : α × α) (t : List (α × α)) :
    sumQty (pn :: t) = pn.2 / pn.1 + sumQty t := by
  simp [sumQty]

theorem sumNotional_nil : sumNotional ([] : List (α × α)) = 0 := rfl

theorem sumNotional_cons (pn : α × α) (t : List (α × α)) :
    sumNotional (pn :: t) = pn.2 + sumNotional t := by
  simp [sumNotional]

theorem Ledger.runBuys_pos (l : List (α × α)) :
    ∀ (L : Ledger α) (sym : String) (Q A : α),
      (∀ pn ∈ l, 0 < pn.1 ∧ 0 < pn.2) → L.posOf sym = ⟨Q, A⟩ → 0 < Q →
      (L.runBuys sym l).posOf sym =
        ⟨Q + sumQty l, (A * Q + sumNotional l) / (Q + sumQty l)⟩ := by
  induction l with
  | nil =>
    intro L sym Q A _ hp hQ
    rw [show L.runBuys sym [] = L from rfl, hp, sumQty_nil, sumNotional_nil,
      add_zero, add_zero, mul_div_cancel_right₀ A (ne_of_gt hQ)]
  | cons pn t ih =>
    intro L sym Q A hl hp hQ
    have hpn := hl pn (List.mem_cons_self pn t)
    have hfill : fillOf pn.1 pn.2 = pn.2 / pn.1 := if_pos hpn.1
    have hf : 0 < pn.2 / pn.1 := div_pos hpn.2 hpn.1
    have hQ' : 0 < Q + pn.2 / pn.1 := add_pos hQ hf
    have h1 : (L.buy sym pn.1 pn.2).2.posOf sym =
        ⟨Q + pn.2 / pn.1, (A * Q + pn.2) / (Q + pn.2 / pn.1)⟩ := by
      rw [Ledger.buy_posOf_self, hfill, hp]
      show (if Q + pn.2 / pn.1 ≤ 0 then (⟨0, 0⟩ : Position α)
            else ⟨Q + pn.2 / pn.1,
                  if 0 < Q then (A * Q + pn.1 * (pn.2 / pn.1)) / (Q + pn.2 / pn.1)
                  else pn.1⟩) = _
      rw [if_neg (not_le.mpr hQ'), if_pos hQ, mul_comm pn.1,
        div_mul_cancel₀ pn.2 (ne_of_gt hpn.1)]
    have ht := ih ((L.buy sym pn.1 pn.2).2) sym (Q + pn.2 / pn.1)
      ((A * Q + pn.2) / (Q + pn.2 / pn.1))
      (fun q hq => hl q (List.mem_cons_of_mem pn hq)) h1 hQ'
    rw [show L.runBuys sym (pn :: t) = (L.buy sym pn.1 pn.2).2.runBuys sym t from rfl, ht]
    have hcancel : (A * Q + pn.2) / (Q + pn.2 / pn.1) * (Q + pn.2 / pn.1) =
        A * Q + pn.2 := div_mul_cancel₀ _ (ne_of_gt hQ')
    refine Position.ext ?_ ?_
    · rw [sumQty_cons]
      ring
    · rw [hcancel, sumQty_cons, sumNotional_cons]
      have hnum : A * Q + pn.2 + sumNotional t = A * Q + (pn.2 + sumNotional t) := by ring
      have hden : Q + pn.2 / pn.1 + sumQty t = Q + (pn.2 / pn.1 + sumQty t) := by ring
      rw [hnum, hden]

theorem Ledger.runBuys_flat (l : List (α × α)) (L : Ledger α) (sym : String)
    (hl : ∀ pn ∈ l, 0 < pn.1 ∧ 0 < pn.2) (hflat : (L.posOf sym).qty = 0)
    (hne : l ≠ []) :
    (L.runBuys sym l).posOf sym = ⟨sumQty l, sumNotional l / sumQty l⟩ := by
  cases l with
  | nil => exact absurd rfl hne
  | cons pn t =>
    have hpn := hl pn (List.mem_cons_self pn t)
    have hfill : fillOf pn.1 pn.2 = pn.2 / pn.1 := if_pos hpn.1
    have hf : 0 < pn.2 / pn.1 := div_pos hpn.2 hpn.1
    have h1 : (L.buy sym pn.1 pn.2).2.posOf sym = ⟨pn.2 / pn.1, pn.1⟩ := by
      rw [Ledger.buy_posOf_self, hfill, hflat, zero_add, if_neg (not_le.mpr hf),
        if_neg (lt_irrefl 0)]
    have ht := Ledger.runBuys_pos t ((L.buy sym pn.1 pn.2).2) sym (pn.2 / pn.1) pn.1
      (fun q hq => hl q (List.mem_cons_of_mem pn hq)) h1 hf
    rw [show L.runBuys sym (pn :: t) = (L.buy sym pn.1 pn.2).2.runBuys sym t from rfl, ht]
    refine Position.ext ?_ ?_
    · rw [sumQty_cons]
    · rw [sumQty_cons, sumNotional_cons, mul_comm pn.1,
        div_mul_cancel₀ pn.2 (ne_of_gt hpn.1)]

/-- C9: applying any finite list of buys, each with positive price and
positive notional, from a flat position yields a total quantity equal to the
sum of the fills `n/p` and an average entry price equal to the total notional
divided by the total filled quantity; the resulting position is invariant
under any permutation of the list of buys. -/
theorem C9_weighted_mean (L : Ledger α) (sym : String) (l : List (α × α))
    (hl : ∀ pn ∈ l, 0 < pn.1 ∧ 0 < pn.2) (hflat : (L.posOf sym).qty = 0) :
    ((L.runBuys sym l).posOf sym).qty = sumQty l ∧
    (l ≠ [] → ((L.runBuys sym l).posOf sym).avg_entry = sumNotional l / sumQty l) ∧
    (∀ l2, l.Perm l2 →
      (L.runBuys sym l2).posOf sym = (L.runBuys sym l).posOf sym) := by
  refine ⟨?_, ?_, ?_⟩
  · cases hl0 : l with
    | nil =>
      rw [show L.runBuys sym [] = L from rfl, sumQty_nil, hflat]
    | cons pn t =>
      rw [Ledger.runBuys_flat (pn :: t) L sym (hl0 ▸ hl) hflat (List.cons_ne_nil pn t)]
  · intro hne
    rw [Ledger.runBuys_flat l L sym hl hflat hne]
  · intro l2 hperm
    cases hl0 : l with
    | nil =>
      subst hl0
      rw [List.Perm.eq_nil hperm.symm]
    | cons pn t =>
      subst hl0
      have hne2 : l2 ≠ [] := by
        intro h2
        subst h2
        exact List.cons_ne_nil pn t (List.Perm.eq_nil hperm)
      have hl2 : ∀ q ∈ l2, 0 < q.1 ∧ 0 < q.2 :=
        fun q hq => hl q (hperm.mem_iff.mpr hq)
      rw [Ledger.runBuys_flat l2 L sym hl2 hflat hne2,
        Ledger.runBuys_flat (pn :: t) L sym hl hflat (List.cons_ne_nil pn t)]
      have hq : sumQty l2 = sumQty (pn :: t) := by
        unfold sumQty
        exact (List.Perm.sum_eq (hperm.map fun q => q.2 / q.1)).symm
      have hn : sumNotional l2 = sumNotional (pn :: t) := by
        unfold sumNotional
        exact (List.Perm.sum_eq (hperm.map Prod.snd)).symm
      rw [hq, hn]

/-! ### C10: a partial sell never moves the cost basis -/

/-- C10: when a sell fills a positive quantity strictly smaller than the
quantity held, the position keeps its average entry price exactly; only its
quantity and the ledger's realized PnL change, and every other symbol's
position value is untouched. -/
theorem C10_reducing_sell_keeps_avg (L : Ledger α) (sym : String) (price notional : α)
    (hf : 0 < L.sellFill sym price notional)
    (hlt : L.sellFill sym price notional < (L.posOf sym).qty) :
    ((L.sell sym price notional).2.posOf sym).avg_entry = (L.posOf sym).avg_entry ∧
    ((L.sell sym price notional).2.posOf sym).qty =
      (L.posOf sym).qty - L.sellFill sym price notional ∧
    (L.sell sym price notional).2.realized_pnl =
      L.realized_pnl + (price - (L.posOf sym).avg_entry) * L.sellFill sym price notional ∧
    (∀ s, s ≠ sym → (L.sell sym price notional).2.posOf s = L.posOf s) := by
  have hf' : ¬ L.sellFill sym price notional ≤ 0 := not_le.mpr hf
  have hr : ¬ (L.posOf sym).qty - L.sellFill sym price notional ≤ 0 :=
    not_le.mpr (sub_pos.mpr hlt)
  have hpos := Ledger.sell_pos_posOf_self L sym price notional hf'
  rw [if_neg hr] at hpos
  refine ⟨?_, ?_, Ledger.sell_pos_realized L sym price notional hf',
    fun s hs => Ledger.sell_posOf_ne L sym s price notional hs⟩
  · rw [hpos]
  · rw [hpos]

/-! ### Witnesses: each hypothesis-bearing claim theorem evaluated at a
concrete rational input -/

theorem C5_witness :
    0 ≤ ((((Ledger.init (α := ℚ)).buy "S" 100 1000).2).posOf "S").qty ∧
    ((((Ledger.init (α := ℚ)).buy "S" 100 1000).2).buy "S" 200 2000).1 = 10 := by
  have h1 : 0 ≤ ((((Ledger.init (α := ℚ)).buy "S" 100 1000).2).posOf "S").qty := by
    norm_num [Ledger.buy, Ledger.ensure, Ledger.posOf, Ledger.init, fillOf]
  have h2 : ((((Ledger.init (α := ℚ)).buy "S" 100 1000).2).posOf "S").qty = 0 →
      ((((Ledger.init (α := ℚ)).buy "S" 100 1000).2).posOf "S").avg_entry = 0 := by
    intro h
    norm_num [Ledger.buy, Ledger.ensure, Ledger.posOf, Ledger.init, fillOf] at h
  refine ⟨h1, ?_⟩
  rw [(C5_buy_contract (((Ledger.init (α := ℚ)).buy "S" 100 1000).2) "S" 200 2000 h1 h2).1,
    if_pos (by norm_num : (0 : ℚ) < 200)]
  norm_num

theorem C6_witness :
    0 < (((Ledger.init (α := ℚ)).buy "S" 100 1000).2).sellFill "S" 150 750 ∧
    ((((Ledger.init (α := ℚ)).buy "S" 100 1000).2).sell "S" 150 750).1 =
      (((Ledger.init (α := ℚ)).buy "S" 100 1000).2).sellFill "S" 150 750 := by
  have hf : 0 < (((Ledger.init (α := ℚ)).buy "S" 100 1000).2).sellFill "S" 150 750 := by
    norm_num [Ledger.sellFill, Ledger.buy, Ledger.ensure, Ledger.posOf, Ledger.init,
      fillOf, min_def]
  exact ⟨hf,
    ((C6_sell_contract (((Ledger.init (α := ℚ)).buy "S" 100 1000).2) "S" 150 750).2 hf).1⟩

theorem C7_witness :
    (Ledger.init (α := ℚ)).positions "X" = none ∧
    ((Ledger.init (α := ℚ)).unrealized "X" 5).1 = 0 :=
  ⟨rfl, (C7_unrealized_query (Ledger.init (α := ℚ)) "X" 5).2.1 rfl⟩

theorem C8_witness :
    (0 : ℚ) < 100 ∧ (0 : ℚ) < 1000 ∧ ((Ledger.init (α := ℚ)).posOf "S").qty = 0 ∧
    ((((Ledger.init (α := ℚ)).buy "S" 100 1000).2.sell "S" 100 1000).2).realized_pnl = 0 ∧
    ((((Ledger.init (α := ℚ)).buy "S" 100 1000).2.sell "S" 100 1000).2).posOf "S" =
      ⟨0, 0⟩ := by
  have h := C8_flat_round_trip (Ledger.init (α := ℚ)) "S" 100 1000
    (by norm_num) (by norm_num) rfl
  exact ⟨by norm_num, by norm_num, rfl, h.1, h.2⟩

theorem C9_witness :
    (∀ pn ∈ [((100 : ℚ), (1000 : ℚ)), (200, 2000)], 0 < pn.1 ∧ 0 < pn.2) ∧
    (((Ledger.init (α := ℚ)).runBuys "S" [(100, 1000), (200, 2000)]).posOf "S").avg_entry =
      sumNotional [((100 : ℚ), (1000 : ℚ)), (200, 2000)] /
        sumQty [((100 : ℚ), (1000 : ℚ)), (200, 2000)] := by
  have hl : ∀ pn ∈ [((100 : ℚ), (1000 : ℚ)), (200, 2000)], 0 < pn.1 ∧ 0 < pn.2 := by
    intro pn hpn
    rcases List.mem_cons.mp hpn with h1 | h2
    · subst h1
      constructor <;> norm_num
    · rcases List.mem_cons.mp h2 with h3 | h4
      · subst h3
        constructor <;> norm_num
      · cases h4
  exact ⟨hl, (C9_weighted_mean (Ledger.init (α := ℚ)) "S"
    [(100, 1000), (200, 2000)] hl rfl).2.1 (List.cons_ne_nil _ _)⟩

theorem C10_witness :
    0 < (((Ledger.init (α := ℚ)).buy "S" 100 1000).2).sellFill "S" 150 750 ∧
    (((Ledger.init (α := ℚ)).buy "S" 100 1000).2).sellFill "S" 150 750 <
      ((((Ledger.init (α := ℚ)).buy "S" 100 1000).2).posOf "S").qty ∧
    (((((Ledger.init (α := ℚ)).buy "S" 100 1000).2).sell "S" 150 750).2.posOf "S").avg_entry =
      ((((Ledger.init (α := ℚ)).buy "S" 100 1000).2).posOf "S").avg_entry := by
  have hf : 0 < (((Ledger.init (α := ℚ)).buy "S" 100 1000).2).sellFill "S" 150 750 := by
    norm_num [Ledger.sellFill, Ledger.buy, Ledger.ensure, Ledger.posOf, Ledger.init,
      fillOf, min_def]
  have hlt : (((Ledger.init (α := ℚ)).buy "S" 100 1000).2).sellFill "S" 150 750 <
      ((((Ledger.init (α := ℚ)).buy "S" 100 1000).2).posOf "S").qty := by
    norm_num [Ledger.sellFill, Ledger.buy, Ledger.ensure, Ledger.posOf, Ledger.init,
      fillOf, min_def]
  exact ⟨hf, hlt,
    (C10_reducing_sell_keeps_avg (((Ledger.init (α := ℚ)).buy "S" 100 1000).2) "S" 150 750 hf hlt).1⟩

end PaperBot
